import Mathlib

/-!
Verification of the `zax` contextual-field store (package `zax`, file `zax.go`)
against its natural-language specification.

The store binds an ordered sequence of `zap.Field` values to an ambient
`context.Context` under one reserved private key (`loggerKey`).  All six
operations (`Set`, `Append`, `GetAll`, `GetFields`, `GetField`, `Prune`) only
ever read or rebind that single slot, so a context is embedded as the content
of its zax slot: `none` when no `[]zap.Field` value is bound, `some fs` when
the sequence `fs` is bound.

A second, lower-level embedding (`Slice`/`Heap`, the `mem*` operations) models
Go slices with their backing arrays and capacities, because `Append` uses Go's
built-in `append` on the stored slice, whose array-reuse behaviour is
observable across sibling contexts.
-/

namespace Zax

/-- The typed value carried by a `zap.Field`; only the constructors the claims
exercise are modelled (`zap.String`, `zap.Strings`, and the zero value). -/
inductive ZapValue where
  | unknown : ZapValue
  | str : String → ZapValue
  | strs : List String → ZapValue
  deriving DecidableEq, Repr

/-- A `zap.Field`: a string key and a typed value. -/
structure Field where
  key : String
  val : ZapValue
  deriving DecidableEq, Repr

/-- `zap.String k v`. -/
def strField (k v : String) : Field := ⟨k, ZapValue.str v⟩

/-- `zap.Strings k vs`. -/
def strsField (k : String) (vs : List String) : Field := ⟨k, ZapValue.strs vs⟩

/-- The zero value `zap.Field{}`. -/
def zeroField : Field := ⟨"", ZapValue.unknown⟩

/-- A context, restricted to its zax slot: `none` when no `[]zap.Field` is
bound under `loggerKey` (the type assertion in the source fails), `some fs`
when the sequence `fs` is bound. -/
abbrev Ctx := Option (List Field)

/-- `AbsentFieldsKey` from `zax.go`. -/
def AbsentFieldsKey : String := "_absentFields"

/-- `Set`: bind exactly the passed fields, discarding any previous binding
(`context.WithValue(ctx, loggerKey, fields)`). -/
def Set (_ctx : Ctx) (fields : List Field) : Ctx := some fields

/-- `Append`: when a sequence is already bound, bind
`append(loggerFields, fields...)` (existing entries first); otherwise bind the
passed fields. -/
def Append (ctx : Ctx) (fields : List Field) : Ctx :=
  match ctx with
  | some loggerFields => some (loggerFields ++ fields)
  | none => some fields

/-- `GetAll`: the bound sequence when present, otherwise `nil`. -/
def GetAll (ctx : Ctx) : List Field :=
  match ctx with
  | some loggerFields => loggerFields
  | none => []

/-- The scan loop inside `GetField`: return the first field of the list whose
key matches, with `ok = true`; fall through to `(zap.Field{}, false)`. -/
def getFieldGo (k : String) : List Field → Field × Bool
  | [] => (zeroField, false)
  | field :: rest => if field.key = k then (field, true) else getFieldGo k rest

/-- `GetField`: scan the bound sequence (if any) for the first field with the
given key. -/
def GetField (ctx : Ctx) (k : String) : Field × Bool :=
  match ctx with
  | some loggerFields => getFieldGo k loggerFields
  | none => (zeroField, false)

/-- The loop inside `GetFields`, threading the `fields` and `absentKeys`
accumulators, followed by the final
`append(fields, zap.Strings(AbsentFieldsKey, absentKeys))`. -/
def getFieldsGo (ctx : Ctx) : List String → List Field → List String → List Field
  | [], fields, absentKeys => fields ++ [strsField AbsentFieldsKey absentKeys]
  | k :: rest, fields, absentKeys =>
      if (GetField ctx k).2
      then getFieldsGo ctx rest (fields ++ [(GetField ctx k).1]) absentKeys
      else getFieldsGo ctx rest fields (absentKeys ++ [k])

/-- `GetFields`: collect the requested fields that are found, then append one
synthetic field listing the requested keys that were not found. -/
def GetFields (ctx : Ctx) (keys : List String) : List Field :=
  getFieldsGo ctx keys [] []

/-- The loop inside `Prune`: iterate over the bound sequence from the last
entry to the first (here: over the reversed list), keep a field whose key has
not been seen, and mark every visited key as seen. -/
def pruneGo : List Field → List String → List Field
  | [], _ => []
  | field :: rest, seenKeys =>
      if field.key ∈ seenKeys
      then pruneGo rest (field.key :: seenKeys)
      else field :: pruneGo rest (field.key :: seenKeys)

/-- `Prune`: when a sequence is bound, rebind the deduplicated sequence built
by the backwards scan; otherwise return the context unchanged. -/
def Prune (ctx : Ctx) : Ctx :=
  match ctx with
  | some loggerFields => Set ctx (pruneGo loggerFields.reverse [])
  | none => ctx

/-- Second definition, following the specification's words for Deduplicate
(§4.6): "scan the bound sequence from most-recently-bound to
least-recently-bound; keep the first occurrence of each key encountered in
that reverse scan ... preserving the reverse-scan emission order".  Stated on
key lists: keep each key's first occurrence, in order of first occurrence. -/
def specDedupFirst : List String → List String
  | [] => []
  | k :: rest => k :: specDedupFirst (rest.filter (fun x => x != k))
  termination_by l => l.length
  decreasing_by
    simp only [List.length_cons]
    exact Nat.lt_succ_of_le (List.length_filter_le _ _)

/-! ### Slice-level embedding

`Append` calls Go's built-in `append` on the slice stored in the parent
context.  When the stored slice has spare capacity, `append` (per the Go
specification) re-uses the underlying array, so the write is visible through
every other slice over that array.  To settle claims about mutation of
previously issued contexts this second embedding represents slices explicitly:
a heap of backing arrays and slice headers `(base, start, len, cap)`.  Backing
arrays are kept at their full capacity, with `zeroField` in the cells beyond
any slice's length. -/

/-- A heap of backing arrays, addressed by index of allocation. -/
abbrev Heap := List (List Field)

/-- A Go slice header over some backing array of the heap. -/
structure Slice where
  base : Nat
  start : Nat
  len : Nat
  cap : Nat
  deriving DecidableEq, Repr

/-- The backing array at index `i` (empty if unallocated). -/
def readArr (h : Heap) (i : Nat) : List Field := h.getD i []

/-- The elements a slice sees. -/
def readSlice (h : Heap) (s : Slice) : List Field :=
  ((readArr h s.base).drop s.start).take s.len

/-- Overwrite the cells of an array from position `i` on with `xs`. -/
def writeRange (a : List Field) (i : Nat) : List Field → List Field
  | [] => a
  | x :: xs => writeRange (a.set i x) (i + 1) xs

/-- Go's built-in `append s xs`: if the capacity suffices, write `xs` into the
existing backing array just past the slice's length and return a longer header
over the same array; otherwise allocate a fresh array holding the combined
elements (capacity choice of the fresh array does not matter below and is
taken to be exactly the new length). -/
def goAppend (h : Heap) (s : Slice) (xs : List Field) : Heap × Slice :=
  if s.len + xs.length ≤ s.cap then
    (h.set s.base (writeRange (readArr h s.base) (s.start + s.len) xs),
     { s with len := s.len + xs.length })
  else
    let n := s.len + xs.length
    (h ++ [readSlice h s ++ xs], ⟨h.length, 0, n, n⟩)

/-- A context's zax slot at slice level: `none`, or the stored slice header. -/
abbrev MemCtx := Option Slice

/-- `Set` at slice level: store the argument slice header as-is. -/
def memSet (_ctx : MemCtx) (s : Slice) : MemCtx := some s

/-- `Append` at slice level: `append(loggerFields, fields...)` on the stored
slice, then bind the resulting slice; `xs` are the values of the argument
slice (which is only read). -/
def memAppend (h : Heap) (ctx : MemCtx) (xs : List Field) : Heap × MemCtx :=
  match ctx with
  | some loggerFields =>
      let hs := goAppend h loggerFields xs
      (hs.1, some hs.2)
  | none =>
      (h ++ [xs], some ⟨h.length, 0, xs.length, xs.length⟩)

/-- `GetAll` at slice level: the elements of the stored slice. -/
def memGetAll (h : Heap) (ctx : MemCtx) : List Field :=
  match ctx with
  | some s => readSlice h s
  | none => []

/-! The concrete scenario for the aliasing question: a parent context whose
stored slice has length 1 and capacity 2 (as produced, e.g., by
`Set(ctx0, make([]zap.Field, 1, 2))` or by an earlier growing `append`),
followed by two sibling `Append` calls on that same parent. -/

/-- Initial heap: one backing array of capacity 2 holding field `a` and an
unused cell. -/
def bugHeap : Heap := [[strField "a" "0", zeroField]]

/-- The parent context: `Set` binding the caller's slice of length 1,
capacity 2 over that array. -/
def bugCtx : MemCtx := memSet none ⟨0, 0, 1, 2⟩

/-- First sibling: `c1 = Append(ctx, [x])`. -/
def bugStep1 : Heap × MemCtx := memAppend bugHeap bugCtx [strField "x" "1"]

/-- Second sibling: `c2 = Append(ctx, [y])`, computed after `c1`. -/
def bugStep2 : Heap × MemCtx := memAppend bugStep1.1 bugCtx [strField "y" "2"]

/-! ### Helper lemmas -/

/-- The `GetField` scan loop returns the first match of the bound list. -/
theorem getFieldGo_eq (k : String) (l : List Field) :
    getFieldGo k l
      = match l.find? (fun f => f.key == k) with
        | some f => (f, true)
        | none => (zeroField, false) := by
  induction l with
  | nil => rfl
  | cons f rest ih =>
      by_cases h : f.key = k
      · simp [getFieldGo, h, List.find?_cons]
      · simp [getFieldGo, h, List.find?_cons, ih]

/-- Closed form of the `GetFields` loop with both accumulators generalized. -/
theorem getFieldsGo_eq (ctx : Ctx) :
    ∀ (keys : List String) (fields : List Field) (absent : List String),
      getFieldsGo ctx keys fields absent
        = fields
          ++ (keys.filter (fun j => (GetField ctx j).2)).map (fun j => (GetField ctx j).1)
          ++ [strsField AbsentFieldsKey
                (absent ++ keys.filter (fun j => !(GetField ctx j).2))] := by
  intro keys
  induction keys with
  | nil => intro fields absent; simp [getFieldsGo]
  | cons k rest ih =>
      intro fields absent
      by_cases h : (GetField ctx k).2 = true
      · simp [getFieldsGo, h, ih, List.filter_cons]
      · simp only [Bool.not_eq_true] at h
        simp [getFieldsGo, h, ih, List.filter_cons]

/-- Per-key content of the `Prune` loop output: with `seen` already-excluded
keys, the fields of key `k` that survive are exactly the first `k`-keyed entry
of the scanned list (none when `k` is already seen). -/
theorem pruneGo_filter (k : String) :
    ∀ (l : List Field) (seen : List String),
      (pruneGo l seen).filter (fun f => f.key == k)
        = if k ∈ seen then [] else (l.find? (fun f => f.key == k)).toList := by
  intro l
  induction l with
  | nil =>
      intro seen
      by_cases h : k ∈ seen <;> simp [pruneGo, h]
  | cons f rest ih =>
      intro seen
      simp only [pruneGo]
      by_cases hf : f.key ∈ seen
      · rw [if_pos hf, ih]
        by_cases hk : k ∈ seen
        · simp [hk]
        · have hne : f.key ≠ k := fun e => hk (e ▸ hf)
          have hnotc : ¬ k ∈ f.key :: seen := by
            simp only [List.mem_cons, not_or]
            exact ⟨Ne.symm hne, hk⟩
          rw [if_neg hnotc, if_neg hk, List.find?_cons]
          have hb : (f.key == k) = false := beq_eq_false_iff_ne.mpr hne
          rw [hb]
      · rw [if_neg hf, List.filter_cons]
        by_cases hk : f.key = k
        · subst hk
          have hmem : f.key ∈ f.key :: seen := List.mem_cons_self _ _
          simp [ih, hmem, hf, List.find?_cons]
        · have hb : (f.key == k) = false := beq_eq_false_iff_ne.mpr hk
          rw [hb, ih]
          by_cases hks : k ∈ seen
          · simp [hks]
          · have hnotc : ¬ k ∈ f.key :: seen := by
              simp only [List.mem_cons, not_or]
              exact ⟨fun e => hk e.symm, hks⟩
            rw [if_neg hnotc, if_neg hks, List.find?_cons, hb]
            simp

/-- Key order of the `Prune` loop output: it is the spec's reverse-scan
first-occurrence dedup of the scanned keys, after discarding keys in `seen`. -/
theorem pruneGo_keys :
    ∀ (l : List Field) (seen : List String),
      (pruneGo l seen).map Field.key
        = specDedupFirst ((l.map Field.key).filter (fun x => decide (¬ x ∈ seen))) := by
  intro l
  induction l with
  | nil => intro seen; simp [pruneGo, specDedupFirst]
  | cons f rest ih =>
      intro seen
      simp only [pruneGo, List.map_cons, List.filter_cons]
      by_cases hf : f.key ∈ seen
      · have hdec : decide (¬ f.key ∈ seen) = false := by simp [hf]
        rw [if_pos hf, hdec, if_neg (by simp), ih]
        congr 1
        apply List.filter_congr
        intro x _
        apply decide_eq_decide.mpr
        constructor
        · intro h hx
          exact h (List.mem_cons.mpr (Or.inr hx))
        · intro hns hx
          rcases List.mem_cons.mp hx with e | hx2
          · exact hns (e ▸ hf)
          · exact hns hx2
      · have hdec : decide (¬ f.key ∈ seen) = true := by simp [hf]
        rw [if_neg hf, hdec, if_pos rfl, List.map_cons, ih, specDedupFirst,
          List.filter_filter]
        congr 2
        apply List.filter_congr
        intro x _
        by_cases h1 : x = f.key <;> by_cases h2 : x ∈ seen <;>
          simp [h1, h2, List.mem_cons]

/-! ### Claim theorems -/

/-- C1: the claim fails on the code.  `Append` calls Go's built-in `append` on
the slice bound in the parent context; when that slice has spare capacity
(length 1, capacity 2 here), `append` re-uses the shared backing array, so
computing the second sibling `c2 = Append(ctx, [y])` overwrites the cell that
the earlier sibling `c1 = Append(ctx, [x])` observes: `GetAll(c1)` reads
`[a, x]` before `c2` is computed and `[a, y]` afterwards. -/
theorem append_mutates_prior_sibling :
    memGetAll bugStep1.1 bugStep1.2 = [strField "a" "0", strField "x" "1"]
    ∧ memGetAll bugStep2.1 bugStep1.2 = [strField "a" "0", strField "y" "2"] :=
  ⟨rfl, rfl⟩

/-- C2: `GetAll ∘ Prune` keeps exactly one field per distinct key — for each
key the surviving field is the last-bound occurrence of that key — and on
`Append(Set(ctx, [a=1]), [a=2])` the result is exactly the single field
`a=2`. -/
theorem prune_keeps_last_binding (ctx : Ctx) (fs : List Field) (k : String) :
    (GetAll (Prune (some fs))).filter (fun f => f.key == k)
        = (fs.reverse.find? (fun f => f.key == k)).toList
    ∧ GetAll (Prune (Append (Set ctx [strField "a" "1"]) [strField "a" "2"]))
        = [strField "a" "2"] := by
  constructor
  · have h := pruneGo_filter k fs.reverse []
    simpa [Prune, Set, GetAll] using h
  · rfl

/-- C3: appending onto a context that was just `Set` to `F1` binds exactly
`F1 ++ F2` — existing entries first — of length `|F1| + |F2|`. -/
theorem append_concatenates (ctx : Ctx) (F1 F2 : List Field) :
    GetAll (Append (Set ctx F1) F2) = F1 ++ F2
    ∧ (GetAll (Append (Set ctx F1) F2)).length = F1.length + F2.length := by
  refine ⟨rfl, ?_⟩
  simp [Set, Append, GetAll]

/-- C4: `GetFields` returns the found fields (in request order) followed by
exactly one synthetic field keyed `AbsentFieldsKey` listing the requested keys
not found, in request order; the synthetic field is appended even when nothing
is absent, and a zero-key request yields just the synthetic field with an
empty list. -/
theorem getFields_absent_marker (ctx : Ctx) (keys : List String) :
    GetFields ctx keys
      = (keys.filter (fun j => (GetField ctx j).2)).map (fun j => (GetField ctx j).1)
        ++ [strsField AbsentFieldsKey (keys.filter (fun j => !(GetField ctx j).2))]
    ∧ GetFields ctx [] = [strsField AbsentFieldsKey []] := by
  constructor
  · simpa using getFieldsGo_eq ctx keys [] []
  · rfl

/-- C5: `Set` fully replaces whatever was bound before: `GetAll` after `Set`
is exactly the supplied sequence, for a fresh context and for contexts with a
prior `Set` or `Append` binding. -/
theorem set_replaces (ctx : Ctx) (F G : List Field) :
    GetAll (Set ctx F) = F
    ∧ GetAll (Set (Set ctx G) F) = F
    ∧ GetAll (Set (Append ctx G) F) = F :=
  ⟨rfl, rfl, rfl⟩

/-- C6: `GetField` returns the first field of the bound sequence (in scan
order) whose key matches, with `ok = true`, and otherwise `ok = false` with
the zero field — concretely, with two `a`-keyed entries the earlier one is
returned, and a context without the key yields `(zap.Field{}, false)`. -/
theorem getField_first_match (ctx : Ctx) (k : String) :
    GetField ctx k
      = (match (GetAll ctx).find? (fun f => f.key == k) with
          | some f => (f, true)
          | none => (zeroField, false))
    ∧ GetField (some [strField "b" "0", strField "a" "1", strField "a" "2"]) "a"
        = (strField "a" "1", true)
    ∧ GetField (none : Ctx) "missing" = (zeroField, false) := by
  refine ⟨?_, by decide, rfl⟩
  cases ctx with
  | none => rfl
  | some l => simpa [GetField, GetAll] using getFieldGo_eq k l

/-- C7: `GetAll` on a context with no bound sequence returns the empty
result. -/
theorem getAll_unbound_empty : GetAll (none : Ctx) = [] := rfl

/-- C8: every store operation is a total function of its arguments: on any
context, field sequence and key(s) each operation evaluates to a result. -/
theorem ops_total (ctx : Ctx) (fs : List Field) (keys : List String) (k : String) :
    (∃ c, Set ctx fs = c) ∧ (∃ c, Append ctx fs = c) ∧ (∃ r, GetAll ctx = r)
    ∧ (∃ r, GetFields ctx keys = r) ∧ (∃ r, GetField ctx k = r)
    ∧ (∃ c, Prune ctx = c) :=
  ⟨⟨_, rfl⟩, ⟨_, rfl⟩, ⟨_, rfl⟩, ⟨_, rfl⟩, ⟨_, rfl⟩, ⟨_, rfl⟩⟩

/-- C9: `Prune` emits kept fields most-recently-bound first: the key order of
`GetAll ∘ Prune` is the first-occurrence dedup of the reversed key sequence,
and concretely `[a=1, b=2, a=3]` prunes to `[a=3, b=2]`, not re-reversed to
chronological order. -/
theorem prune_most_recent_first (fs : List Field) :
    (GetAll (Prune (some fs))).map Field.key
      = specDedupFirst ((fs.map Field.key).reverse)
    ∧ GetAll (Prune (some [strField "a" "1", strField "b" "2", strField "a" "3"]))
      = [strField "a" "3", strField "b" "2"] := by
  constructor
  · have h := pruneGo_keys fs.reverse []
    simpa [Prune, Set, GetAll, List.map_reverse] using h
  · rfl

/-- C10: `Prune` of a context with no bound sequence returns the context
itself, so the zax slot is still absent (not an empty bound sequence) and
`GetAll` on the result is empty. -/
theorem prune_unbound_identity :
    Prune (none : Ctx) = (none : Ctx) ∧ GetAll (Prune (none : Ctx)) = [] :=
  ⟨rfl, rfl⟩

end Zax
